import Mathlib

/-!
Verification of the TMO (True Momentum Oscillator) implementation in
src/pandas_ta/momentum/tmo.py against its natural-language specification.

Numeric series are modelled over the rationals; a pandas Series that may
contain missing values (NaN) is modelled as a list of optional rationals,
where none stands for a missing entry.  Each definition below is a direct
translation of the corresponding Python function or statement, cited by
line number in its doc comment.
-/

/-- Translation of compute_combined_kernel (tmo.py lines 9-13):
alpha = 2 / (J + 1);
k3 = [ np.sum([(1-alpha)**(n-m) for m in range(n+1)]) / L for n in range(L) ]. -/
def compute_combined_kernel (L J : ℕ) : List ℚ :=
  let alpha : ℚ := 2 / ((J : ℚ) + 1)
  (List.range L).map (fun n =>
    (((List.range (n + 1)).map (fun m => (1 - alpha) ^ (n - m))).sum) / (L : ℚ))

/-- Translation of fast_convolve (tmo.py lines 15-17), i.e.
np.convolve(signal, kernel, valid mode) for len signal at least len kernel:
output j = sum over m of signal[m] * kernel[j + len kernel - 1 - m], the
kernel being reversed against each full window, so kernel weight 0 applies
to the most recent sample of the window. -/
def fast_convolve (signal kernel : List ℚ) : List ℚ :=
  (List.range (signal.length + 1 - kernel.length)).map (fun j =>
    ((List.range kernel.length).map (fun i =>
      signal.getD (j + i) 0 * kernel.getD (kernel.length - 1 - i) 0)).sum)

/-- Translation of fast_momentum (tmo.py lines 19-21):
signal[mom_len:] - signal[:-mom_len], elementwise. -/
def fast_momentum (signal : List ℚ) (mom_len : ℕ) : List ℚ :=
  (List.range (signal.length - mom_len)).map (fun i =>
    signal.getD (i + mom_len) 0 - signal.getD i 0)

/-- Translation of np.sign applied to a single value:
1 for a positive value, -1 for a negative one, 0 for zero. -/
def np_sign (x : ℚ) : ℚ := if 0 < x then 1 else if x < 0 then -1 else 0

/-- Translation of tmo.py line 68: np.sign(close.values - open_.values). -/
def signum_values (open_ close : List ℚ) : List ℚ :=
  List.zipWith (fun c o => np_sign (c - o)) close open_

/-- Modelled from the spec: the external MovingAverageAdapter collaborator
(pandas_ta.overlap.ma, not part of src/) in exponential mode.  The spec
describes it as exponential smoothing with smoothing parameter
alpha = 2/(J+1) over span J; recursively y[t] = alpha*x[t] + (1-alpha)*y[t-1],
seeded with the first sample.  This helper carries the previous output. -/
def ema_go (alpha : ℚ) (prev : ℚ) : List ℚ → List ℚ
  | [] => []
  | x :: xs => (alpha * x + (1 - alpha) * prev) :: ema_go alpha (alpha * x + (1 - alpha) * prev) xs

/-- Modelled from the spec: exponential moving average of span J, the
external exponential MovingAverageAdapter with alpha = 2/(J+1). -/
def ema_smooth (J : ℕ) : List ℚ → List ℚ
  | [] => []
  | x :: xs => x :: ema_go (2 / ((J : ℚ) + 1)) x xs

/-- Translation of the argument validation in tmo.py lines 28-30:
value = int(value) if value and value > 0 else default.  A Python None or
a non-positive integer is falsy or fails the positivity test, so the
default is substituted; a positive integer is kept. -/
def validateLength (arg : Option ℤ) (default : ℕ) : ℕ :=
  match arg with
  | none => default
  | some v => if 0 < v then v.toNat else default

/-- Arguments of the tmo entry point that are read before the unbound-name
error at line 74: the three lengths and the moving-average mode tag. -/
structure TmoArgs where
  tmo_length : Option ℤ
  calc_length : Option ℤ
  smooth_length : Option ℤ
  mamode : Option String
  deriving DecidableEq

/-- Possible outcomes of a call to the tmo entry point: the Python None
returned when series validation fails (line 38), an unhandled NameError
escaping the function body, or a returned DataFrame holding the four
output columns (lines 113-123). -/
inductive TmoResult where
  | noneResult : TmoResult
  | nameError (missing : String) : TmoResult
  | frame (main smooth momMain momSmooth : List (Option ℚ)) : TmoResult
  deriving DecidableEq

/-- Translation of the tmo entry point (tmo.py lines 24-74) up to the point
where execution stops.  Validation substitutes defaults 14/5/3 for absent or
non-positive lengths (lines 28-30) and defaults the mode to ema (line 31).
The external verify_series collaborator is modelled from the spec: it yields
no series when the input is shorter than the largest configured window, and
tmo then returns None (lines 34-38).  Otherwise the signum series, the
kernel and the convolution are computed (lines 68-73), and line 74 then
reads the name tmo_main_signal, which is bound nowhere in the module, so
the call raises NameError before any output is assembled. -/
def tmo (open_ close : List ℚ) (args : TmoArgs) : TmoResult :=
  let tmo_length := validateLength args.tmo_length 14
  let calc_length := validateLength args.calc_length 5
  let smooth_length := validateLength args.smooth_length 3
  let mamode := match args.mamode with | some s => s | none => "ema"
  let required := max tmo_length (max calc_length smooth_length)
  if open_.length < required ∨ close.length < required then
    TmoResult.noneResult
  else
    let signum := signum_values open_ close
    let kernel := if mamode ≠ "ema" then List.replicate tmo_length (1 : ℚ)
                  else compute_combined_kernel tmo_length calc_length
    let _conv_result := fast_convolve signum kernel
    TmoResult.nameError "tmo_main_signal"

/-- Translation of tmo.py lines 75-80 together with the reindexing the
DataFrame constructor (lines 113-118) performs: with momentum enabled,
Series(fast_momentum(signal, L), index=signal.index[L:]) reindexed over the
full index of the signal leaves the first L entries missing; with momentum
disabled the scalar 0 of line 75 broadcasts to a zero column over the full
index. -/
def mom_column (computeMom : Bool) (signal : List ℚ) (mom_len : ℕ) : List (Option ℚ) :=
  if computeMom then
    List.replicate (min mom_len signal.length) none ++ (fast_momentum signal mom_len).map some
  else
    List.replicate signal.length (some 0)

/-- Translation of pandas Series.shift(o) on a series of optional values:
a positive o pushes values o positions later, introducing o missing entries
at the front and dropping the last o values; a negative o pulls values
earlier symmetrically.  Length is preserved. -/
def series_shift (o : ℤ) (s : List (Option ℚ)) : List (Option ℚ) :=
  if 0 ≤ o then
    List.replicate (min o.toNat s.length) none ++ s.take (s.length - o.toNat)
  else
    s.drop (-o).toNat ++ List.replicate (min (-o).toNat s.length) none

/-- Translation of the offset handling in tmo.py lines 82-89 for one series.
Line 84 reassigns offset = 0 immediately before the test at line 85, so the
shift branch is never taken, whatever offset was configured. -/
def offset_stage (configured_offset : ℤ) (s : List (Option ℚ)) : List (Option ℚ) :=
  let offset : ℤ := 0
  if offset ≠ 0 then series_shift offset s else
    let _ := configured_offset
    s

/-- Translation of pandas Series.fillna(c): every missing entry becomes the
constant c, defined entries are unchanged. -/
def do_fillna (c : ℚ) (s : List (Option ℚ)) : List (Option ℚ) :=
  s.map (fun x => some (x.getD c))

/-- Forward-fill helper: carries the most recent defined value (none when no
defined value has occurred yet) and substitutes it for missing entries. -/
def ffill_go (last : Option ℚ) : List (Option ℚ) → List (Option ℚ)
  | [] => []
  | some v :: xs => some v :: ffill_go (some v) xs
  | none :: xs => last :: ffill_go last xs

/-- The two propagation fill methods pandas fillna accepts. -/
inductive FillMethod where
  | ffill : FillMethod
  | bfill : FillMethod
  deriving DecidableEq

/-- Translation of pandas Series.fillna(method=m): forward fill propagates
the nearest preceding defined value, backward fill the nearest following
one (realised as forward fill on the reversed series). -/
def apply_fill_method : FillMethod → List (Option ℚ) → List (Option ℚ)
  | FillMethod.ffill, s => ffill_go none s
  | FillMethod.bfill, s => (ffill_go none s.reverse).reverse

/-- Translation of the NaN handling in tmo.py lines 91-104 as it applies to
one series (main_signal and smooth_signal receive exactly this treatment):
if a fillna constant is given it is applied first (lines 96-98), then, if a
fill method is given, that method is applied (lines 102-104). -/
def fill_stage (fillna : Option ℚ) (fill_method : Option FillMethod)
    (s : List (Option ℚ)) : List (Option ℚ) :=
  let s1 := match fillna with
    | some c => do_fillna c s
    | none => s
  match fill_method with
  | some m => apply_fill_method m s1
  | none => s1

/-- Modelled from the spec: the Normalizer component (absent from src/),
which multiplies every value of the raw summed signal by 100/L. -/
def normalize_signal (L : ℕ) (s : List ℚ) : List ℚ :=
  s.map (fun x => x * (100 / (L : ℚ)))

/-! Helper lemmas about list indexing and summation. -/

theorem getD_map_range (f : ℕ → ℚ) {n j : ℕ} (h : j < n) (d : ℚ) :
    ((List.range n).map f).getD j d = f j := by
  rw [List.getD_eq_getElem?_getD, List.getElem?_map, List.getElem?_range h]
  rfl

theorem map_range_const (n : ℕ) (c : ℚ) :
    (List.range n).map (fun _ => c) = List.replicate n c := by
  induction n with
  | zero => rfl
  | succ k ih =>
    rw [List.range_succ, List.map_append, ih, List.replicate_succ' k c]
    rfl

theorem getD_zipWith (f : ℚ → ℚ → ℚ) (a b : List ℚ) (i : ℕ)
    (ha : i < a.length) (hb : i < b.length) (d da db : ℚ) :
    (List.zipWith f a b).getD i d = f (a.getD i da) (b.getD i db) := by
  rw [List.getD_eq_getElem?_getD, List.getElem?_zipWith,
      List.getElem?_eq_getElem ha, List.getElem?_eq_getElem hb]
  rw [List.getD_eq_getElem?_getD, List.getElem?_eq_getElem ha]
  rw [List.getD_eq_getElem?_getD, List.getElem?_eq_getElem hb]
  rfl

theorem getD_replicate_lt (n i : ℕ) (a d : ℚ) (h : i < n) :
    (List.replicate n a).getD i d = a := by
  rw [List.getD_eq_getElem?_getD, List.getElem?_replicate]
  simp [h]

/-- With the all-ones kernel of width L, each valid-convolution output entry
is the plain sum of the corresponding window of L input samples. -/
theorem fast_convolve_ones_entry (s : List ℚ) (L j : ℕ)
    (hL : 1 ≤ L) (hj : j < s.length + 1 - L) :
    (fast_convolve s (List.replicate L 1)).getD j 0
      = ((List.range L).map (fun m => s.getD (j + m) 0)).sum := by
  rw [fast_convolve]
  simp only [List.length_replicate]
  rw [getD_map_range _ hj]
  apply congrArg List.sum
  apply List.map_congr_left
  intro m hm
  rw [List.mem_range] at hm
  rw [getD_replicate_lt L (L - 1 - m) 1 0 (by omega), mul_one]

/-- Valid convolution of a constant input with the all-ones kernel of
width L yields the constant L times that value. -/
theorem fast_convolve_replicate_const (c : ℚ) (L N : ℕ) (hL : 1 ≤ L) (hLN : L ≤ N) :
    fast_convolve (List.replicate N c) (List.replicate L 1)
      = List.replicate (N + 1 - L) ((L : ℚ) * c) := by
  rw [fast_convolve]
  simp only [List.length_replicate]
  have hconst : ∀ j ∈ List.range (N + 1 - L),
      (fun j => ((List.range L).map (fun i =>
        (List.replicate N c).getD (j + i) 0 *
          (List.replicate L (1 : ℚ)).getD (L - 1 - i) 0)).sum) j
        = (fun _ => (L : ℚ) * c) j := by
    intro j hj
    rw [List.mem_range] at hj
    have hentry : ∀ i ∈ List.range L,
        (fun i => (List.replicate N c).getD (j + i) 0 *
          (List.replicate L (1 : ℚ)).getD (L - 1 - i) 0) i = (fun _ => c) i := by
      intro i hi
      rw [List.mem_range] at hi
      show (List.replicate N c).getD (j + i) 0 *
          (List.replicate L (1 : ℚ)).getD (L - 1 - i) 0 = c
      rw [getD_replicate_lt N (j + i) c 0 (by omega),
          getD_replicate_lt L (L - 1 - i) 1 0 (by omega), mul_one]
    show ((List.range L).map (fun i =>
        (List.replicate N c).getD (j + i) 0 *
          (List.replicate L (1 : ℚ)).getD (L - 1 - i) 0)).sum = (L : ℚ) * c
    rw [List.map_congr_left hentry, map_range_const L c, List.sum_replicate, nsmul_eq_mul]
  rw [List.map_congr_left hconst, map_range_const]

/-- C2: for every window length L at least 1 and smoothing span J at least 1,
the fused kernel produced by compute_combined_kernel has width exactly L and
its n-th weight, for n below L, equals (1/L) times the sum over m from 0 to n
of (1 - alpha)^(n - m) with alpha = 2/(J+1). -/
theorem compute_combined_kernel_eq (L J : ℕ) :
    compute_combined_kernel L J = (List.range L).map (fun n =>
      (((List.range (n + 1)).map (fun m =>
        (1 - 2 / ((J : ℚ) + 1)) ^ (n - m))).sum) / (L : ℚ)) := rfl

theorem combined_kernel_width_and_weights (L J n : ℕ)
    (hL : 1 ≤ L) (hJ : 1 ≤ J) (hn : n < L) :
    (compute_combined_kernel L J).length = L ∧
    (compute_combined_kernel L J).getD n 0 =
      (1 / (L : ℚ)) *
        ((List.range (n + 1)).map (fun m => (1 - 2 / ((J : ℚ) + 1)) ^ (n - m))).sum := by
  constructor
  · rw [compute_combined_kernel_eq]
    simp
  · rw [compute_combined_kernel_eq]
    rw [getD_map_range _ hn]
    rw [one_div, mul_comm, div_eq_mul_inv]

theorem combined_kernel_width_and_weights_witness :
    (compute_combined_kernel 3 2).length = 3 ∧
    (compute_combined_kernel 3 2).getD 1 0 =
      (1 / ((3 : ℕ) : ℚ)) *
        ((List.range 2).map (fun m => (1 - 2 / (((2 : ℕ) : ℚ) + 1)) ^ (1 - m))).sum :=
  combined_kernel_width_and_weights 3 2 1 (by decide) (by decide) (by decide)

/-- C4: on equal-length open and close series the signum series has the same
length, its element i is 1 when close exceeds open, -1 when open exceeds
close and 0 otherwise, and every element lies in the set of -1, 0 and 1. -/
theorem sign_series_spec (open_ close : List ℚ) (i : ℕ)
    (hlen : open_.length = close.length) (hi : i < close.length) :
    (signum_values open_ close).length = open_.length ∧
    (signum_values open_ close).getD i 0 =
      (if open_.getD i 0 < close.getD i 0 then 1
       else if close.getD i 0 < open_.getD i 0 then -1 else 0) ∧
    ((signum_values open_ close).getD i 0 = -1 ∨
      (signum_values open_ close).getD i 0 = 0 ∨
      (signum_values open_ close).getD i 0 = 1) := by
  have hio : i < open_.length := by omega
  have hval : (signum_values open_ close).getD i 0 =
      np_sign (close.getD i 0 - open_.getD i 0) :=
    getD_zipWith _ close open_ i hi hio 0 0 0
  have hif : (signum_values open_ close).getD i 0 =
      (if open_.getD i 0 < close.getD i 0 then 1
       else if close.getD i 0 < open_.getD i 0 then -1 else 0) := by
    rw [hval, np_sign]
    simp only [sub_pos, sub_neg]
  refine ⟨?_, hif, ?_⟩
  · simp [signum_values, List.length_zipWith, hlen]
  · rw [hif]
    split_ifs <;> simp

theorem sign_series_spec_witness :
    (signum_values [1, 2, 1, 3, 2] [2, 1, 2, 1, 3]).length = ([1, 2, 1, 3, 2] : List ℚ).length ∧
    (signum_values [1, 2, 1, 3, 2] [2, 1, 2, 1, 3]).getD 0 0 =
      (if ([1, 2, 1, 3, 2] : List ℚ).getD 0 0 < ([2, 1, 2, 1, 3] : List ℚ).getD 0 0 then 1
       else if ([2, 1, 2, 1, 3] : List ℚ).getD 0 0 < ([1, 2, 1, 3, 2] : List ℚ).getD 0 0 then -1
       else 0) ∧
    ((signum_values [1, 2, 1, 3, 2] [2, 1, 2, 1, 3]).getD 0 0 = -1 ∨
      (signum_values [1, 2, 1, 3, 2] [2, 1, 2, 1, 3]).getD 0 0 = 0 ∨
      (signum_values [1, 2, 1, 3, 2] [2, 1, 2, 1, 3]).getD 0 0 = 1) :=
  sign_series_spec [1, 2, 1, 3, 2] [2, 1, 2, 1, 3] 0 (by decide) (by decide)

/-- C5: the generic non-fused path realises RollingSum by valid convolution
with the all-ones kernel of width L: the output has length N - L + 1, so no
value exists for positions before the first full window, the value aligned
to input position i (for i at least L - 1) is the sum of the L most recent
sign values ending at i, and on an all-ones series of length N at least L
every valid output value is the constant L. -/
theorem rolling_sum_spec (s : List ℚ) (L i N : ℕ)
    (hL : 1 ≤ L) (hLs : L ≤ s.length) (hiL : L - 1 ≤ i) (his : i < s.length)
    (hLN : L ≤ N) :
    (fast_convolve s (List.replicate L 1)).length = s.length - L + 1 ∧
    (fast_convolve s (List.replicate L 1)).getD (i - (L - 1)) 0
      = ((List.range L).map (fun m => s.getD (i - (L - 1) + m) 0)).sum ∧
    fast_convolve (List.replicate N 1) (List.replicate L 1)
      = List.replicate (N - L + 1) (L : ℚ) := by
  refine ⟨?_, ?_, ?_⟩
  · rw [fast_convolve]
    simp only [List.length_map, List.length_range, List.length_replicate]
    omega
  · exact fast_convolve_ones_entry s L (i - (L - 1)) hL (by omega)
  · have h := fast_convolve_replicate_const 1 L N hL hLN
    rw [mul_one] at h
    rw [h]
    congr 1
    omega

theorem rolling_sum_spec_witness :
    (fast_convolve [1, -1, 1, -1, 1] (List.replicate 3 1)).length
      = ([1, -1, 1, -1, 1] : List ℚ).length - 3 + 1 ∧
    (fast_convolve [1, -1, 1, -1, 1] (List.replicate 3 1)).getD (4 - (3 - 1)) 0
      = ((List.range 3).map (fun m =>
          ([1, -1, 1, -1, 1] : List ℚ).getD (4 - (3 - 1) + m) 0)).sum ∧
    fast_convolve (List.replicate 5 1) (List.replicate 3 1)
      = List.replicate (5 - 3 + 1) ((3 : ℕ) : ℚ) :=
  rolling_sum_spec [1, -1, 1, -1, 1] 3 4 5
    (by decide) (by decide) (by decide) (by decide) (by decide)

/-- C9: the spec-modelled Normalizer multiplies every value of the raw
summed signal by 100/L; applied to the RollingSum(L) output on an all plus
one sign series it yields the constant 100, and on an all minus one sign
series the constant -100, at every valid index. -/
theorem normalizer_spec (L N : ℕ) (hL : 1 ≤ L) (hLN : L ≤ N) :
    normalize_signal L (fast_convolve (List.replicate N (1 : ℚ)) (List.replicate L 1))
      = List.replicate (N - L + 1) (100 : ℚ) ∧
    normalize_signal L (fast_convolve (List.replicate N (-1 : ℚ)) (List.replicate L 1))
      = List.replicate (N - L + 1) (-100 : ℚ) := by
  have hL0 : (L : ℚ) ≠ 0 := Nat.cast_ne_zero.mpr (by omega)
  have hidx : N + 1 - L = N - L + 1 := by omega
  constructor
  · rw [fast_convolve_replicate_const 1 L N hL hLN, normalize_signal,
        List.map_replicate, hidx]
    congr 1
    field_simp
  · rw [fast_convolve_replicate_const (-1) L N hL hLN, normalize_signal,
        List.map_replicate, hidx]
    congr 1
    field_simp
    ring

theorem normalizer_spec_witness :
    normalize_signal 3 (fast_convolve (List.replicate 5 (1 : ℚ)) (List.replicate 3 1))
      = List.replicate (5 - 3 + 1) (100 : ℚ) ∧
    normalize_signal 3 (fast_convolve (List.replicate 5 (-1 : ℚ)) (List.replicate 3 1))
      = List.replicate (5 - 3 + 1) (-100 : ℚ) :=
  normalizer_spec 3 5 (by decide) (by decide)

/-- C6: with momentum enabled and lag L the momentum column has the length
of its source signal, is missing at every position below L, and at every
position i from L on holds signal[i] - signal[i - L]; with momentum
disabled it is the explicit all-zero column of the same length. -/
theorem momentum_stage_spec (signal : List ℚ) (L i k : ℕ)
    (hL : 1 ≤ L) (hLs : L ≤ signal.length)
    (hk : k < L) (hiL : L ≤ i) (his : i < signal.length) :
    (mom_column true signal L).length = signal.length ∧
    (mom_column true signal L).getD k (some 0) = none ∧
    (mom_column true signal L).getD i none
      = some (signal.getD i 0 - signal.getD (i - L) 0) ∧
    mom_column false signal L = List.replicate signal.length (some 0) := by
  have hmin : min L signal.length = L := by omega
  have hfmlen : (fast_momentum signal L).length = signal.length - L := by
    rw [fast_momentum]
    simp
  refine ⟨?_, ?_, ?_, ?_⟩
  · rw [mom_column]
    simp only [if_pos]
    rw [List.length_append, List.length_map, List.length_replicate, hfmlen, hmin]
    omega
  · rw [mom_column]
    simp only [if_pos]
    rw [List.getD_eq_getElem?_getD,
      List.getElem?_append_left (by rw [List.length_replicate, hmin]; omega),
      List.getElem?_replicate]
    simp [hmin, hk]
  · rw [mom_column]
    simp only [if_pos]
    rw [List.getD_eq_getElem?_getD,
      List.getElem?_append_right (by rw [List.length_replicate, hmin]; omega),
      List.length_replicate, hmin, List.getElem?_map]
    have hlt : i - L < (fast_momentum signal L).length := by omega
    rw [List.getElem?_eq_getElem hlt]
    have : (fast_momentum signal L)[i - L] =
        signal.getD (i - L + L) 0 - signal.getD (i - L) 0 := by
      have h2 : (fast_momentum signal L)[i - L]? =
          some (signal.getD (i - L + L) 0 - signal.getD (i - L) 0) := by
        rw [fast_momentum, List.getElem?_map, List.getElem?_range (by omega)]
        rfl
      rw [List.getElem?_eq_getElem hlt] at h2
      exact Option.some_injective _ h2
    rw [this, show i - L + L = i from by omega]
    rfl
  · rw [mom_column]
    simp

theorem momentum_stage_spec_witness :
    (mom_column true [4, 7, 9] 1).length = ([4, 7, 9] : List ℚ).length ∧
    (mom_column true [4, 7, 9] 1).getD 0 (some 0) = none ∧
    (mom_column true [4, 7, 9] 1).getD 2 none
      = some (([4, 7, 9] : List ℚ).getD 2 0 - ([4, 7, 9] : List ℚ).getD (2 - 1) 0) ∧
    mom_column false [4, 7, 9] 1 = List.replicate ([4, 7, 9] : List ℚ).length (some 0) :=
  momentum_stage_spec [4, 7, 9] 1 2 0
    (by decide) (by decide) (by decide) (by decide) (by decide)

/-! Helper lemmas for the fill stage. -/

theorem ffill_go_all_some (s : List (Option ℚ)) (h : ∀ x ∈ s, x ≠ none) :
    ∀ last, ffill_go last s = s := by
  induction s with
  | nil => intro last; rfl
  | cons x xs ih =>
    intro last
    match x with
    | some v =>
      rw [ffill_go]
      rw [ih (fun y hy => h y (List.mem_cons_of_mem _ hy)) (some v)]
    | none =>
      exact absurd rfl (h none (List.mem_cons_self none xs))

theorem do_fillna_all_some (c : ℚ) (s : List (Option ℚ)) :
    ∀ x ∈ do_fillna c s, x ≠ none := by
  intro x hx
  rw [do_fillna, List.mem_map] at hx
  obtain ⟨y, _, rfl⟩ := hx
  exact Option.some_ne_none _

theorem apply_fill_method_all_some (m : FillMethod) (s : List (Option ℚ))
    (h : ∀ x ∈ s, x ≠ none) : apply_fill_method m s = s := by
  cases m with
  | ffill => exact ffill_go_all_some s h none
  | bfill =>
    rw [apply_fill_method,
        ffill_go_all_some s.reverse (fun x hx => h x (List.mem_reverse.mp hx)) none,
        List.reverse_reverse]

theorem do_fillna_getD (c : ℚ) (s : List (Option ℚ)) (i : ℕ)
    (hi : i < s.length) (h : s.getD i (some 0) = none) :
    (do_fillna c s).getD i none = some c := by
  have hsome : s[i] = none := by
    rw [List.getD_eq_getElem?_getD, List.getElem?_eq_getElem hi] at h
    exact h
  rw [do_fillna, List.getD_eq_getElem?_getD, List.getElem?_map,
      List.getElem?_eq_getElem hi, hsome]
  rfl

theorem ffill_leading_none (s : List (Option ℚ)) (i : ℕ) (hi : i < s.length)
    (h : ∀ j, j ≤ i → s.getD j (some 0) = none) :
    (ffill_go none s).getD i (some 0) = none := by
  induction s generalizing i with
  | nil => simp at hi
  | cons x xs ih =>
    have hx : x = none := by
      have h0 := h 0 (Nat.zero_le i)
      rwa [List.getD_cons_zero] at h0
    subst hx
    rw [ffill_go]
    cases i with
    | zero => rfl
    | succ k =>
      rw [List.getD_cons_succ]
      refine ih k (by simpa using hi) ?_
      intro j hj
      have := h (j + 1) (by omega)
      rwa [List.getD_cons_succ] at this

/-- C8: the NaN handling of tmo.py lines 91-104, applied to a series: with a
constant fill value configured every missing entry becomes exactly that
constant, whatever fill method is also given; with only a forward-fill
method configured, a missing entry preceded by no defined value stays
missing; with no fill policy configured the series is unchanged. -/
theorem fill_policy_spec (s : List (Option ℚ)) (c : ℚ) (m : Option FillMethod)
    (i k : ℕ) (hi : i < s.length) (hnone : s.getD i (some 0) = none)
    (hk : k < s.length) (hpre : ∀ j, j ≤ k → s.getD j (some 0) = none) :
    (fill_stage (some c) m s).getD i none = some c ∧
    (fill_stage none (some FillMethod.ffill) s).getD k (some 0) = none ∧
    fill_stage none none s = s := by
  refine ⟨?_, ?_, rfl⟩
  · cases m with
    | none => exact do_fillna_getD c s i hi hnone
    | some mm =>
      show (apply_fill_method mm (do_fillna c s)).getD i none = some c
      rw [apply_fill_method_all_some mm _ (do_fillna_all_some c s)]
      exact do_fillna_getD c s i hi hnone
  · show (apply_fill_method FillMethod.ffill s).getD k (some 0) = none
    exact ffill_leading_none s k hk hpre

theorem fill_policy_spec_witness :
    (fill_stage (some 7) none [none, some 5, none]).getD 2 none = some 7 ∧
    (fill_stage none (some FillMethod.ffill) [none, some 5, none]).getD 0 (some 0) = none ∧
    fill_stage none none [none, some 5, none] = [none, some 5, none] :=
  fill_policy_spec [none, some 5, none] 7 none 2 0
    (by decide) (by decide) (by decide) (by decide)

/-- C3: for every open and close series long enough to pass series
validation, calling tmo with the default configuration (exponential mode)
stops with the unbound-name error on tmo_main_signal and returns no
DataFrame: line 74 reads a name bound nowhere in the module, and the
momentum flag spelled compute_momemtum in the signature would likewise
never match the name compute_momentum tested at line 78. -/
theorem tmo_default_raises_unbound_name (open_ close : List ℚ)
    (ho : 14 ≤ open_.length) (hc : 14 ≤ close.length) :
    tmo open_ close ⟨none, none, none, none⟩
      = TmoResult.nameError "tmo_main_signal" := by
  rw [tmo]
  simp only [validateLength]
  rw [if_neg]
  push_neg
  constructor <;> simp <;> omega

theorem tmo_default_raises_unbound_name_witness :
    tmo (List.replicate 14 (1 : ℚ)) (List.replicate 14 (2 : ℚ)) ⟨none, none, none, none⟩
      = TmoResult.nameError "tmo_main_signal" :=
  tmo_default_raises_unbound_name (List.replicate 14 1) (List.replicate 14 2)
    (by decide) (by decide)

/-! Helper lemmas for the fused-kernel comparison. -/

theorem list_sum_range_eq (f : ℕ → ℚ) (n : ℕ) :
    ((List.range n).map f).sum = ∑ j in Finset.range n, f j := by
  induction n with
  | zero => rfl
  | succ k ih => rw [List.sum_range_succ, Finset.sum_range_succ, ih]

theorem sum_getD_range (k : List ℚ) :
    ((List.range k.length).map (fun i => k.getD i 0)).sum = k.sum := by
  induction k with
  | nil => rfl
  | cons x xs ih =>
    rw [List.length_cons, List.sum_range_succ' (fun i => (x :: xs).getD i 0) xs.length]
    simp only [List.getD_cons_zero, List.getD_cons_succ]
    rw [ih, List.sum_cons]

theorem sum_getD_rev (k : List ℚ) :
    ((List.range k.length).map (fun i => k.getD (k.length - 1 - i) 0)).sum = k.sum := by
  rw [list_sum_range_eq, Finset.sum_range_reflect (fun i => k.getD i 0) k.length,
      ← list_sum_range_eq, sum_getD_range]

/-- Valid convolution of a constant input with any kernel of width at most
the input length yields the constant input value times the kernel sum. -/
theorem fast_convolve_const_input (c : ℚ) (N : ℕ) (k : List ℚ)
    (hk : 1 ≤ k.length) (hkN : k.length ≤ N) :
    fast_convolve (List.replicate N c) k
      = List.replicate (N + 1 - k.length) (c * k.sum) := by
  rw [fast_convolve]
  simp only [List.length_replicate]
  have hconst : ∀ j ∈ List.range (N + 1 - k.length),
      (fun j => ((List.range k.length).map (fun i =>
        (List.replicate N c).getD (j + i) 0 * k.getD (k.length - 1 - i) 0)).sum) j
        = (fun _ => c * k.sum) j := by
    intro j hj
    rw [List.mem_range] at hj
    have hent : ∀ i ∈ List.range k.length,
        (fun i => (List.replicate N c).getD (j + i) 0 * k.getD (k.length - 1 - i) 0) i
          = (fun i => c * k.getD (k.length - 1 - i) 0) i := by
      intro i hi
      rw [List.mem_range] at hi
      show (List.replicate N c).getD (j + i) 0 * k.getD (k.length - 1 - i) 0
        = c * k.getD (k.length - 1 - i) 0
      rw [getD_replicate_lt N (j + i) c 0 (by omega)]
    show ((List.range k.length).map (fun i =>
        (List.replicate N c).getD (j + i) 0 * k.getD (k.length - 1 - i) 0)).sum = c * k.sum
    rw [List.map_congr_left hent,
        List.sum_map_mul_left (List.range k.length) (fun i => k.getD (k.length - 1 - i) 0) c,
        sum_getD_rev]
  rw [List.map_congr_left hconst, map_range_const]

theorem ema_go_const (alpha c : ℚ) (n : ℕ) :
    ema_go alpha c (List.replicate n c) = List.replicate n c := by
  induction n with
  | zero => rfl
  | succ m ih =>
    rw [List.replicate_succ, ema_go]
    have hc : alpha * c + (1 - alpha) * c = c := by ring
    rw [hc, ih]

theorem ema_smooth_const (J n : ℕ) (c : ℚ) :
    ema_smooth J (List.replicate n c) = List.replicate n c := by
  cases n with
  | zero => rfl
  | succ m =>
    rw [List.replicate_succ, ema_smooth, ema_go_const]

/-- Every partial sum of powers of 2/3 is strictly below the geometric
limit 3, so every weight of the fused kernel for L = 14, J = 5 is strictly
below 3/14 and the kernel total is strictly below 3. -/
theorem combined_kernel_sum_lt_three : (compute_combined_kernel 14 5).sum < 3 := by
  have hterm : ∀ n : ℕ,
      ((List.range (n + 1)).map (fun m =>
        ((1 : ℚ) - 2 / (((5 : ℕ) : ℚ) + 1)) ^ (n - m))).sum < 3 := by
    intro n
    have hx : (1 : ℚ) - 2 / (((5 : ℕ) : ℚ) + 1) = 2 / 3 := by norm_num
    rw [hx, list_sum_range_eq]
    have hrefl : ∑ m in Finset.range (n + 1), ((2 : ℚ) / 3) ^ (n - m)
        = ∑ m in Finset.range (n + 1), ((2 : ℚ) / 3) ^ m := by
      have h := Finset.sum_range_reflect (fun m => ((2 : ℚ) / 3) ^ m) (n + 1)
      simpa using h
    rw [hrefl, geom_sum_eq (by norm_num : (2 : ℚ) / 3 ≠ 1) (n + 1),
        div_lt_iff_of_neg (by norm_num : (2 : ℚ) / 3 - 1 < 0)]
    have hp : (0 : ℚ) < (2 / 3) ^ (n + 1) := by positivity
    linarith
  rw [compute_combined_kernel_eq, list_sum_range_eq]
  have hb : ∀ n ∈ Finset.range 14,
      (((List.range (n + 1)).map (fun m =>
        ((1 : ℚ) - 2 / (((5 : ℕ) : ℚ) + 1)) ^ (n - m))).sum) / (((14 : ℕ) : ℚ))
        < 3 / 14 := by
    intro n _
    have h3 := hterm n
    rw [div_lt_div_iff (by norm_num) (by norm_num)]
    push_cast
    linarith
  calc (∑ n in Finset.range 14,
      (((List.range (n + 1)).map (fun m =>
        ((1 : ℚ) - 2 / (((5 : ℕ) : ℚ) + 1)) ^ (n - m))).sum) / (((14 : ℕ) : ℚ)))
      < ∑ _n in Finset.range 14, (3 / 14 : ℚ) :=
        Finset.sum_lt_sum_of_nonempty (by simp) hb
    _ = 3 := by
        rw [Finset.sum_const, Finset.card_range]
        norm_num

/-- C1 is refuted on the code: on an all-ones sign series of length 40
(much longer than L + J = 19) with the default parameters L = 14 and J = 5,
the two-stage generic path (RollingSum of width 14 followed by the
exponential smoother of span 5) is exactly 14 at every output position,
already at position 10 and still at the final position 26, while the fused
kernel of compute_combined_kernel convolved with the same series is the
same constant below 3 at both positions, so far outside the warm-up region
the two paths stay more than 11 apart: the kernel omits the exponential
normalisation factor alpha of the smoother and divides by L besides, scaling
the fused output by about 1/(alpha*L) relative to the two-stage result. -/
theorem fused_kernel_diverges_from_two_stage :
    (ema_smooth 5 (fast_convolve (List.replicate 40 1) (List.replicate 14 1))).getD 26 0 = 14 ∧
    (ema_smooth 5 (fast_convolve (List.replicate 40 1) (List.replicate 14 1))).getD 10 0 = 14 ∧
    (fast_convolve (List.replicate 40 1) (compute_combined_kernel 14 5)).getD 26 0 =
      (fast_convolve (List.replicate 40 1) (compute_combined_kernel 14 5)).getD 10 0 ∧
    (fast_convolve (List.replicate 40 1) (compute_combined_kernel 14 5)).getD 26 0 < 3 ∧
    11 < (ema_smooth 5 (fast_convolve (List.replicate 40 1) (List.replicate 14 1))).getD 26 0
          - (fast_convolve (List.replicate 40 1) (compute_combined_kernel 14 5)).getD 26 0 := by
  have hk_len : (compute_combined_kernel 14 5).length = 14 := by
    rw [compute_combined_kernel_eq]
    simp
  have htwo : fast_convolve (List.replicate 40 (1 : ℚ)) (List.replicate 14 1)
      = List.replicate 27 14 := by
    have h := fast_convolve_replicate_const 1 14 40 (by omega) (by omega)
    rw [mul_one] at h
    rw [h]
    norm_num
  have hfused : fast_convolve (List.replicate 40 (1 : ℚ)) (compute_combined_kernel 14 5)
      = List.replicate 27 ((compute_combined_kernel 14 5).sum) := by
    have h := fast_convolve_const_input 1 40 (compute_combined_kernel 14 5)
      (by rw [hk_len]; omega) (by rw [hk_len]; omega)
    rw [one_mul, hk_len] at h
    exact h
  have hema : ema_smooth 5 (List.replicate 27 (14 : ℚ)) = List.replicate 27 14 :=
    ema_smooth_const 5 27 14
  have hS := combined_kernel_sum_lt_three
  have e26 : (ema_smooth 5 (fast_convolve (List.replicate 40 1)
      (List.replicate 14 1))).getD 26 0 = 14 := by
    rw [htwo, hema, getD_replicate_lt 27 26 14 0 (by omega)]
  have e10 : (ema_smooth 5 (fast_convolve (List.replicate 40 1)
      (List.replicate 14 1))).getD 10 0 = 14 := by
    rw [htwo, hema, getD_replicate_lt 27 10 14 0 (by omega)]
  have f26 : (fast_convolve (List.replicate 40 1)
      (compute_combined_kernel 14 5)).getD 26 0 = (compute_combined_kernel 14 5).sum := by
    rw [hfused, getD_replicate_lt 27 26 _ 0 (by omega)]
  have f10 : (fast_convolve (List.replicate 40 1)
      (compute_combined_kernel 14 5)).getD 10 0 = (compute_combined_kernel 14 5).sum := by
    rw [hfused, getD_replicate_lt 27 10 _ 0 (by omega)]
  refine ⟨e26, e10, by rw [f26, f10], by rw [f26]; exact hS, ?_⟩
  rw [e26, f26]
  linarith

/-- C7 is refuted on the code: the configured offset never shifts anything,
because line 84 reassigns offset to 0 before the test at line 85; on the
concrete input offset 1 over the series [1, 2] the code leaves the series
unchanged, while the shift the claim describes would delay the values by
one position and introduce one missing leading entry. -/
theorem offset_stage_ignores_offset :
    (∀ (o : ℤ) (s : List (Option ℚ)), offset_stage o s = s) ∧
    offset_stage 1 [some 1, some 2] = [some 1, some 2] ∧
    series_shift 1 [some 1, some 2] = [none, some 1] := by
  refine ⟨fun o s => rfl, rfl, by decide⟩

/-- C10 is refuted on the code at the concrete input tmo_length = -1 with
20-bar series: no typed InvalidConfig result is produced; validation
substitutes the default 14 (lines 28-30) and the call proceeds into the
body, stopping only at the unrelated unbound-name error of line 74. -/
theorem tmo_invalid_length_counterexample :
    tmo (List.replicate 20 (1 : ℚ)) (List.replicate 20 (2 : ℚ)) ⟨some (-1), none, none, none⟩
      = TmoResult.nameError "tmo_main_signal" ∧
    validateLength (some (-1)) 14 = 14 := by
  exact ⟨by decide, rfl⟩

/-- C10 amended: a non-positive configured length is not an error; it is
replaced by the module defaults 14/5/3 and the invocation proceeds, and an
input shorter than the largest effective window makes the invocation return
the empty result of the validation collaborator (Python None) instead of a
typed error. -/
theorem tmo_invalid_length_amended (v : ℤ) (open_ close shortOpen : List ℚ)
    (hv : v ≤ 0) (ho : 14 ≤ open_.length) (hc : 14 ≤ close.length)
    (hs : shortOpen.length < 14) :
    validateLength (some v) 14 = 14 ∧
    validateLength (some v) 5 = 5 ∧
    validateLength (some v) 3 = 3 ∧
    tmo open_ close ⟨some v, none, none, none⟩
      = TmoResult.nameError "tmo_main_signal" ∧
    tmo shortOpen close ⟨some v, none, none, none⟩ = TmoResult.noneResult := by
  have h14 : validateLength (some v) 14 = 14 := by
    rw [validateLength, if_neg (by omega)]
  have h5 : validateLength (some v) 5 = 5 := by
    rw [validateLength, if_neg (by omega)]
  have h3 : validateLength (some v) 3 = 3 := by
    rw [validateLength, if_neg (by omega)]
  have hvif : (if 0 < v then v.toNat else 14) = 14 := if_neg (by omega)
  refine ⟨h14, h5, h3, ?_, ?_⟩
  · rw [tmo]
    simp only [validateLength, hvif]
    rw [if_neg (by omega)]
  · rw [tmo]
    simp only [validateLength, hvif]
    rw [if_pos (by omega)]

theorem tmo_invalid_length_amended_witness :
    validateLength (some (-1)) 14 = 14 ∧
    validateLength (some (-1)) 5 = 5 ∧
    validateLength (some (-1)) 3 = 3 ∧
    tmo (List.replicate 14 (1 : ℚ)) (List.replicate 14 (2 : ℚ))
        ⟨some (-1), none, none, none⟩ = TmoResult.nameError "tmo_main_signal" ∧
    tmo [] (List.replicate 14 (2 : ℚ)) ⟨some (-1), none, none, none⟩
      = TmoResult.noneResult :=
  tmo_invalid_length_amended (-1) (List.replicate 14 1) (List.replicate 14 2) []
    (by decide) (by decide) (by decide) (by decide)
